import Mathlib

/-!
Verification development for the in-memory compressed image engine
(chunked per-channel compression store).

The development shallowly embeds the storage layer of the repository:

* the codec adapter wrappers (blosc2_wrapper.h),
* the lazy super-chunk (blosc2/lazyschunk.h, blosc2/schunk_mixin.h),
* the chunk-coordinate helpers (containers/chunk_span.h),
* the single-pass chunk iterator (iterators/iterator.h),
* the channel and image constructors (channel.h, image.h) and the
  contiguous-channel resolution used by bulk read (detail/oiio_util.h).

Compressed chunk bytes are modelled by their decompressed content: the
external codec is a bitwise round-trip and its chunks are self-describing,
so for every property below only the content and the event structure
matter, never the particular byte encoding.  size_t arithmetic is modelled
as Nat with an explicit wrap modulo 2^64 where the source can underflow.
-/

/-- Error taxonomy of the engine: each constructor stands for one family of
exceptions thrown by the sources (std::runtime_error, std::out_of_range,
std::invalid_argument, std::bad_variant_access). -/
inductive Err where
  | codecFailure
  | sizeMismatch
  | indexOutOfRange
  | unknownChannel
  | invalidState
  | invalidArgument
  | runtimeError
  | badVariantAccess
deriving DecidableEq, Repr

/-! ## Codec adapter (blosc2_wrapper.h) -/

/-- Embedding of blosc2::decompress (blosc2_wrapper.h, lines 179-196).  The
argument is the integer status returned by the external codec call
blosc2_decompress_ctx; the wrapper throws exactly when that status is
negative and otherwise returns the decompressed byte count unchanged. -/
def blosc2_decompress (codecResult : Int) : Except Err Nat :=
  if codecResult < 0 then Except.error Err.codecFailure
  else Except.ok codecResult.toNat

/-- Embedding of channel_iterator::decompress_chunk (iterators/iterator.h,
lines 237-256): the wrapper result is additionally rejected when the byte
count is not a multiple of sizeof(T). -/
def decompress_chunk (sizeofT : Nat) (codecResult : Int) : Except Err Nat :=
  match blosc2_decompress codecResult with
  | Except.error e => Except.error e
  | Except.ok nu =>
      if nu % sizeofT ≠ 0 then Except.error Err.runtimeError
      else Except.ok nu

/-! ## Chunk coordinate helpers (containers/chunk_span.h) -/

/-- Embedding of chunk_span::get_global_index (chunk_span.h, lines 76-80).
The source computes the base offset as m_ChunkIndex * chunk_size where
chunk_size is the ChunkSize template parameter measured in BYTES (the
static_assert in iterator.h line 48 and the buffer sizing in lines 100-103
fix that unit), not in elements of T. -/
def get_global_index (chunkSizeBytes chunkIndex index : Nat) : Nat :=
  chunkIndex * chunkSizeBytes + index

/-- Embedding of chunk_span::x (chunk_span.h, lines 42-46). -/
def chunk_span_x (chunkSizeBytes width chunkIndex index : Nat) : Nat :=
  get_global_index chunkSizeBytes chunkIndex index % width

/-- Embedding of chunk_span::y (chunk_span.h, lines 53-57). -/
def chunk_span_y (chunkSizeBytes width chunkIndex index : Nat) : Nat :=
  get_global_index chunkSizeBytes chunkIndex index / width

/-! ## Lazy super-chunk data model (blosc2/lazyschunk.h) -/

/-- Value of a detail::lazy_chunk slot (lazyschunk.h, lines 24-39): either
already-compressed bytes, modelled by their decompressed content, or a
plain fill value. -/
inductive LazyVal (T : Type) where
  | compressed (content : List T)
  | fill (value : T)
deriving DecidableEq, Repr

/-- Embedding of detail::lazy_chunk: the slot value plus the uncompressed
element count of the slot. -/
structure LazyChunk (T : Type) where
  value : LazyVal T
  numElements : Nat
deriving DecidableEq, Repr

/-- Decompressed content of one lazy slot: a compressed slot decompresses
to its stored content, a fill slot materialises to numElements copies of
the fill value (lazy_schunk::chunk, lazyschunk.h lines 154-170). -/
def lazy_chunk_content {T : Type} (c : LazyChunk T) : List T :=
  match c.value with
  | LazyVal.compressed d => d
  | LazyVal.fill v => List.replicate c.numElements v

/-- Embedding of lazy_schunk::has_lazy_chunk (lazyschunk.h, lines 270-280). -/
def has_lazy_chunk {T : Type} (chunks : List (LazyChunk T)) : Bool :=
  chunks.any (fun c =>
    match c.value with
    | LazyVal.fill _ => true
    | LazyVal.compressed _ => false)

/-- Embedding of lazy_schunk::lazy_chunk_value (lazyschunk.h, lines
284-295): value of the first fill slot, the default value of T when no
fill slot exists. -/
def lazy_chunk_value {T : Type} (default : T) : List (LazyChunk T) → T
  | [] => default
  | c :: rest =>
      match c.value with
      | LazyVal.fill v => v
      | LazyVal.compressed _ => lazy_chunk_value default rest

/-- Embedding of lazy_schunk::size (lazyschunk.h, lines 254-262): the sum
of the per-slot uncompressed element counts. -/
def lazy_schunk_size {T : Type} (chunks : List (LazyChunk T)) : Nat :=
  (chunks.map (fun c => c.numElements)).sum

/-! ## size_t index guard (blosc2/schunk_mixin.h, blosc2/lazyschunk.h) -/

/-- Number of values of a 64-bit size_t. -/
def size_t_card : Nat := 2 ^ 64

/-- size_t subtraction of one: wraps to 2^64 - 1 when the operand is 0. -/
def size_t_sub1 (n : Nat) : Nat := (n + (size_t_card - 1)) % size_t_card

/-- Embedding of the index guard of schunk_mixin::validate_chunk_index
(schunk_mixin.h, lines 135-143) and of the identical inline checks in
lazy_schunk::chunk and lazy_schunk::chunk_size (lazyschunk.h, lines
154-170, 177-205, 217-227): the guard condition is
index > m_Chunks.size() - 1 evaluated in size_t arithmetic. -/
def chunk_index_guard_throws (numChunks index : Nat) : Bool :=
  decide (index > size_t_sub1 numChunks)

/-- Embedding of lazy_schunk::chunk_size(index) (lazyschunk.h, lines
217-227): run the guard, then read the element count of slot index.  A
result of .ok none models the out-of-bounds vector read the source
performs when the guard passes on an invalid index. -/
def lazy_chunk_size_at {T : Type} (chunks : List (LazyChunk T)) (index : Nat) :
    Except Err (Option Nat) :=
  if chunk_index_guard_throws chunks.length index then Except.error Err.indexOutOfRange
  else Except.ok ((chunks[index]?).map (fun c => c.numElements))

/-- Embedding of lazy_schunk::chunk(ctx, index) (lazyschunk.h, lines
154-170): run the guard, then return the decompressed slot content.  A
result of .ok none models the out-of-bounds vector read the source
performs when the guard passes on an invalid index. -/
def lazy_chunk_at {T : Type} (chunks : List (LazyChunk T)) (index : Nat) :
    Except Err (Option (List T)) :=
  if chunk_index_guard_throws chunks.length index then Except.error Err.indexOutOfRange
  else Except.ok ((chunks[index]?).map lazy_chunk_content)

/-! ## Lazy super-chunk constructor (blosc2/lazyschunk.h, lines 54-76) -/

/-- Semantics of the single-argument std::views::iota(start) used by the
constructor loop (lazyschunk.h, line 66): the view is unbounded, its
sentinel is std::unreachable_sentinel_t, so the loop-exit comparison
it == end is false at every step regardless of the current position. -/
def iota_unbounded_done (position : Nat) : Bool := false

/-- Fuel-bounded run of the full-chunk loop of the lazy_schunk constructor
(lazyschunk.h, lines 66-70).  Each iteration pushes one fill chunk of
fullElems elements; the loop exits only when the iota view is exhausted.
The result is none when the fuel runs out before the loop exits. -/
def lazy_ctor_loop {T : Type} (value : T) (fullElems : Nat) :
    Nat → Nat → List (LazyChunk T) → Option (List (LazyChunk T))
  | fuel, position, acc =>
      if iota_unbounded_done position then some acc
      else
        match fuel with
        | 0 => none
        | f + 1 =>
            lazy_ctor_loop value fullElems f (position + 1)
              (acc ++ [{ value := LazyVal.fill value, numElements := fullElems }])

/-- Embedding of the lazy_schunk constructor (lazyschunk.h, lines 54-76),
run with bounded fuel.  Validation is modelled from the spec because
util::validate_chunk_size lives in blosc2/util.h which is not under src:
the chunk size must be a positive multiple of sizeof(T).  An .ok none
result means the construction was still inside the full-chunk loop when
the fuel ran out. -/
def lazy_schunk_ctor {T : Type} (sizeofT : Nat) (value : T)
    (numElements chunkSize fuel : Nat) : Except Err (Option (List (LazyChunk T))) :=
  if chunkSize = 0 ∨ chunkSize % sizeofT ≠ 0 then Except.error Err.invalidArgument
  else
    let numBytes := numElements * sizeofT
    let numFullChunks := numBytes / chunkSize
    let remainderBytes := numBytes - chunkSize * numFullChunks
    match lazy_ctor_loop value (chunkSize / sizeofT) fuel numFullChunks [] with
    | none => Except.ok none
    | some chunks =>
        Except.ok (some
          (if remainderBytes > 0 then
            chunks ++ [{ value := LazyVal.fill value, numElements := remainderBytes / sizeofT }]
          else chunks))

/-! ## Lazy super-chunk conversion (blosc2/lazyschunk.h, lines 81-125) -/

/-- Embedding of lazy_schunk::to_schunk.  When any fill slot exists the
source compresses one buffer of chunk_size / sizeof(T) copies of the fill
value and appends that same compressed buffer for every fill slot; a
compressed slot has its stored bytes appended.  The produced eager schunk
is modelled as the list of the decompressed contents of its chunks, in
order.  (The has_lazy_chunk guard in the source only avoids compressing an
unused buffer; the fill branch below is reached exactly when a fill slot
exists, so the semantics agree.) -/
def to_schunk {T : Type} (default : T) (chunkSize sizeofT : Nat)
    (chunks : List (LazyChunk T)) : List (List T) :=
  let fillBuffer : List T :=
    List.replicate (chunkSize / sizeofT) (lazy_chunk_value default chunks)
  chunks.map (fun c =>
    match c.value with
    | LazyVal.compressed d => d
    | LazyVal.fill _ => fillBuffer)

/-! ## Chunk iterator (iterators/iterator.h) -/

/-- State of a channel_iterator together with the blosc2 super-chunk it
borrows.  The super-chunk is the list of the decompressed contents of its
chunks (compressed chunks are self-describing and the codec round-trips
bitwise).  buffer is the fitted decompression scratch buffer, refitted is
m_DecompressionBufferWasRefitted, and log records the target index of
every blosc2_schunk_update_chunk call (write-back) in order. -/
structure IterState (T : Type) where
  chunks : List (List T)
  chunkIndex : Nat
  buffer : List T
  refitted : Bool
  log : List Nat
deriving DecidableEq, Repr

/-- State of a freshly constructed begin iterator (iterator.h, lines
32-68): index 0, scratch buffers not yet initialized. -/
def iter_begin {T : Type} (chunks : List (List T)) : IterState T :=
  { chunks := chunks, chunkIndex := 0, buffer := [], refitted := false, log := [] }

/-- Embedding of compress_chunk followed by update_chunk (iterator.h,
lines 259-278): recompress the fitted decompression buffer and replace
the super-chunk slot at the given index with it; the codec round-trips
bitwise so the new slot content equals the buffer content.  The write-back
is appended to the log. -/
def update_chunk {T : Type} (st : IterState T) (index : Nat) : IterState T :=
  { st with chunks := st.chunks.set index st.buffer, log := st.log ++ [index] }

/-- Embedding of operator* (iterator.h, lines 92-136): fail when valid()
rejects the state (index at or past the chunk count); otherwise write the
previous chunk back when the buffer was refitted and the index is nonzero,
then decompress the current chunk into the buffer, which marks the buffer
refitted (decompress_chunk, line 255). -/
def iter_deref {T : Type} (st : IterState T) : Except Err (IterState T) :=
  if st.chunks.length ≤ st.chunkIndex then Except.error Err.invalidState
  else
    let st1 :=
      if st.refitted ∧ st.chunkIndex ≠ 0 then update_chunk st (st.chunkIndex - 1) else st
    Except.ok
      { st1 with buffer := st1.chunks.getD st1.chunkIndex [], refitted := true }

/-- Embedding of the pre-increment operator (iterator.h, lines 139-147):
advance the index by one, failing when it would pass num_chunks. -/
def iter_advance {T : Type} (st : IterState T) : Except Err (IterState T) :=
  if st.chunks.length < st.chunkIndex + 1 then Except.error Err.indexOutOfRange
  else Except.ok { st with chunkIndex := st.chunkIndex + 1 }

/-- A write of one element through the chunk_span view yielded by
operator*: the view is a span over the decompression buffer, so the write
mutates the buffer in place and touches no flag (chunk_span.h holds no
dirty tracking). -/
def view_write {T : Type} (st : IterState T) (i : Nat) (v : T) : IterState T :=
  { st with buffer := st.buffer.set i v }

/-- Embedding of the destructor (iterator.h, lines 70-88): when the buffer
was refitted, recompress it and write it back at the current index, or at
index - 1 when the iterator sits at the end position. -/
def iter_destroy {T : Type} (st : IterState T) : IterState T :=
  if st.refitted then
    update_chunk st
      (if st.chunkIndex = st.chunks.length then st.chunkIndex - 1 else st.chunkIndex)
  else st

/-- One step of an iterator traversal. -/
inductive IterOp (T : Type) where
  | deref
  | advance
  | write (i : Nat) (v : T)

/-- Run a sequence of iterator steps, propagating the first failure. -/
def run_ops {T : Type} : List (IterOp T) → IterState T → Except Err (IterState T)
  | [], st => Except.ok st
  | op :: rest, st =>
      match
        (match op with
          | IterOp.deref => iter_deref st
          | IterOp.advance => iter_advance st
          | IterOp.write i v => Except.ok (view_write st i v)) with
      | Except.error e => Except.error e
      | Except.ok st2 => run_ops rest st2

/-- The steps of a read-only range-for traversal over n chunks: each
iteration dereferences the current chunk and advances, never writing
through the yielded view. -/
def read_traversal_ops (T : Type) : Nat → List (IterOp T)
  | 0 => []
  | n + 1 => IterOp.deref :: IterOp.advance :: read_traversal_ops T n

/-- A complete read-only traversal of a channel: construct the begin
iterator, dereference and advance once per chunk, then destroy the
iterator at scope exit. -/
def full_read_traversal {T : Type} (chunks : List (List T)) : Except Err (IterState T) :=
  match run_ops (read_traversal_ops T chunks.length) (iter_begin chunks) with
  | Except.error e => Except.error e
  | Except.ok st => Except.ok (iter_destroy st)

/-- The steps of a mutating range-for traversal: at the chunk of each
iteration, dereference, apply the listed view writes, advance. -/
def pass_ops {T : Type} : List (List (Nat × T)) → List (IterOp T)
  | [] => []
  | ws :: rest =>
      IterOp.deref :: (ws.map (fun p => IterOp.write p.1 p.2) ++
        (IterOp.advance :: pass_ops rest))

/-- A complete mutating traversal of a channel: one write list per chunk,
destruction at scope exit. -/
def modify_traversal {T : Type} (chunks : List (List T))
    (writes : List (List (Nat × T))) : Except Err (IterState T) :=
  match run_ops (pass_ops writes) (iter_begin chunks) with
  | Except.error e => Except.error e
  | Except.ok st => Except.ok (iter_destroy st)

/-! ## Channel constructors (channel.h) -/

/-- Modelled from the spec: util::align_chunk_to_scanlines_bytes is
declared in a header that is not under src.  Spec section 4.4: the chunk
size is rounded up to the smallest multiple of width * sizeof(T) that is
at least the requested chunk size, capped by the codec limit of
2^31 - 1 bytes. -/
def align_chunk_to_scanlines_bytes (sizeofT width chunkSize : Nat) : Nat :=
  min (width * sizeofT * ((chunkSize + width * sizeofT - 1) / (width * sizeofT)))
    (2 ^ 31 - 1)

/-- Fuel-bounded splitting of a data buffer into chunks of elemsPerChunk
elements each, the last chunk holding the remainder. -/
def chunkify_go {T : Type} (elemsPerChunk : Nat) : Nat → List T → List (List T)
  | _, [] => []
  | 0, data => [data]
  | fuel + 1, data =>
      if data.length ≤ elemsPerChunk then [data]
      else data.take elemsPerChunk :: chunkify_go elemsPerChunk fuel (data.drop elemsPerChunk)

/-- Modelled from the spec: the eager schunk constructor from a data
buffer lives in blosc2/schunk.h which is not under src.  Spec section 4.2:
the buffer is compressed into chunks of chunk_size / sizeof(T) elements,
every chunk except possibly the last full, the last holding the remainder.
The eager schunk is modelled as the list of the decompressed contents of
its chunks. -/
def chunkify {T : Type} (elemsPerChunk : Nat) (data : List T) : List (List T) :=
  chunkify_go elemsPerChunk data.length data

/-- Embedding of the channel constructor from a data span (channel.h,
lines 89-124): throw when the data size differs from width * height, else
align the chunk size to scanlines and compress the data into a fresh eager
schunk. -/
def channel_ctor_span {T : Type} (sizeofT : Nat) (data : List T)
    (width height chunkSize : Nat) : Except Err (List (List T)) :=
  if data.length ≠ width * height then Except.error Err.runtimeError
  else
    let aligned := align_chunk_to_scanlines_bytes sizeofT width chunkSize
    Except.ok (chunkify (aligned / sizeofT) data)

/-- The schunk_var variant held by a channel: an eager schunk (list of
chunk contents) or a lazy schunk (list of lazy slots). -/
inductive SchunkVar (T : Type) where
  | eager (chunks : List (List T))
  | lazy (chunks : List (LazyChunk T))

/-- Total uncompressed element count of a schunk variant. -/
def schunk_var_size {T : Type} : SchunkVar T → Nat
  | SchunkVar.eager cs => (cs.map List.length).sum
  | SchunkVar.lazy cs => lazy_schunk_size cs

/-- Embedding of the channel constructor from a schunk variant (channel.h,
lines 141-191): both alternatives are size-checked against width * height.
On a mismatching lazy schunk the source throws std::bad_variant_access
while formatting the error message (line 173 reads the wrong alternative);
it throws either way. -/
def channel_ctor_schunk {T : Type} (sv : SchunkVar T) (width height : Nat) :
    Except Err (SchunkVar T) :=
  match sv with
  | SchunkVar.eager cs =>
      if (cs.map List.length).sum ≠ width * height then Except.error Err.invalidArgument
      else Except.ok (SchunkVar.eager cs)
  | SchunkVar.lazy cs =>
      if lazy_schunk_size cs ≠ width * height then Except.error Err.badVariantAccess
      else Except.ok (SchunkVar.lazy cs)

/-! ## Image construction and channel-name operations (image.h) -/

/-- The observable image state for the name-handling properties: the
channel list (with channels of an arbitrary representation C) and the
optional channel-name list. -/
structure ImageState (C : Type) where
  channels : List C
  names : List String
deriving Repr

/-- The channel-name invariant of an image: the name list is either empty
or exactly one name per channel. -/
def names_invariant {C : Type} (st : ImageState C) : Prop :=
  st.names = [] ∨ st.names.length = st.channels.length

/-- The name-mismatch handling shared by both image constructors (image.h,
lines 109-117 and 176-184): a non-empty name list whose length differs
from the channel count is dropped with a printed warning, never an
exception. -/
def ctor_names (numChannels : Nat) (channelNames : List String) : List String :=
  if channelNames.length ≠ numChannels ∧ channelNames.length ≠ 0 then []
  else channelNames

/-- Helper: construct one channel per data buffer, propagating the first
constructor failure (the loop of image.h lines 120-161; a failure is
rethrown as std::runtime_error). -/
def build_channels {T : Type} (sizeofT : Nat) (width height chunkSize : Nat) :
    List (List T) → Except Err (List (List (List T)))
  | [] => Except.ok []
  | b :: rest =>
      match channel_ctor_span sizeofT b width height chunkSize with
      | Except.error _ => Except.error Err.runtimeError
      | Except.ok ch =>
          match build_channels sizeofT width height chunkSize rest with
          | Except.error e => Except.error e
          | Except.ok chs => Except.ok (ch :: chs)

/-- Embedding of the image constructor from raw channel buffers (image.h,
lines 90-162). -/
def image_ctor_buffers {T : Type} (sizeofT : Nat) (buffers : List (List T))
    (width height : Nat) (channelNames : List String) (chunkSize : Nat) :
    Except Err (ImageState (List (List T))) :=
  match build_channels sizeofT width height chunkSize buffers with
  | Except.error e => Except.error e
  | Except.ok chs =>
      Except.ok { channels := chs, names := ctor_names buffers.length channelNames }

/-- Embedding of the image constructor from already-built channels
(image.h, lines 165-186): it applies the same name-mismatch handling and
never throws. -/
def image_ctor_channels {C : Type} (channels : List C)
    (channelNames : List String) : ImageState C :=
  { channels := channels, names := ctor_names channels.length channelNames }

/-- Embedding of image::add_channel taking a built channel (image.h, lines
524-531): the channel is appended; the supplied name (or the empty string
when none was given) is appended exactly when the name list is
non-empty. -/
def add_channel {C : Type} (st : ImageState C) (ch : C) (name : Option String) :
    ImageState C :=
  { channels := st.channels ++ [ch],
    names := if st.names.length > 0 then st.names ++ [name.getD ""] else st.names }

/-- Embedding of image::add_channel taking a raw data span (image.h, lines
549-569): a channel is constructed first (this may throw, leaving the
image untouched), then appended with the same name handling. -/
def add_channel_span {T : Type} (sizeofT : Nat) (st : ImageState (List (List T)))
    (data : List T) (width height chunkSize : Nat) (name : Option String) :
    Except Err (ImageState (List (List T))) :=
  match channel_ctor_span sizeofT data width height chunkSize with
  | Except.error e => Except.error e
  | Except.ok ch => Except.ok (add_channel st ch name)

/-- Embedding of the image::channelnames setter (image.h, lines 835-847):
the new list replaces the old one only when its length equals the channel
count, otherwise std::invalid_argument is thrown and the image is left
unchanged. -/
def set_channelnames {C : Type} (st : ImageState C) (newNames : List String) :
    Except Err (ImageState C) :=
  if newNames.length ≠ st.channels.length then Except.error Err.invalidArgument
  else Except.ok { st with names := newNames }

/-! ## Contiguous channel resolution for bulk read (detail/oiio_util.h, image.h) -/

/-- The name-to-index map built by detail::get_contiguous_channels
(oiio_util.h, lines 41-45): every source channel name is assigned its
index in source order; a repeated assignment to the same name overwrites,
so the lookup yields the last index holding the name.  The parameter i is
the index of the first listed name. -/
def build_name_map : List String → Nat → String → Option Nat
  | [], _ => fun _ => none
  | s :: rest, i => fun k =>
      match build_name_map rest (i + 1) k with
      | some v => some v
      | none => if k = s then some i else none

/-- The index-resolution loop of detail::get_contiguous_channels
(oiio_util.h, lines 47-52): look every requested name up in the map;
std::unordered_map::at throws std::out_of_range on an unknown name. -/
def resolve_indices (sourceNames : List String) : List String → Except Err (List Nat)
  | [] => Except.ok []
  | r :: rest =>
      match build_name_map sourceNames 0 r with
      | none => Except.error Err.indexOutOfRange
      | some i =>
          match resolve_indices sourceNames rest with
          | Except.error e => Except.error e
          | Except.ok is => Except.ok (i :: is)

/-- std::sort on the index vector (oiio_util.h, line 55). -/
def sort_indices (l : List Nat) : List Nat :=
  l.mergeSort (fun a b => decide (a ≤ b))

/-- The run-building loop of detail::get_contiguous_channels (oiio_util.h,
lines 63-75): walk the sorted indices keeping the current run start and
the previous index, closing a half-open run whenever the next index is not
the successor of the previous one, and closing the final run at the
end. -/
def build_ranges (rangeStart previous : Nat) : List Nat → List (Nat × Nat)
  | [] => [(rangeStart, previous + 1)]
  | x :: xs =>
      if x = previous + 1 then build_ranges rangeStart x xs
      else (rangeStart, previous + 1) :: build_ranges x x xs

/-- Embedding of detail::get_contiguous_channels (oiio_util.h, lines
36-78): resolve the requested names to indices, sort them, and emit the
list of half-open contiguous runs (empty input yields no runs). -/
def get_contiguous_channels (sourceNames requested : List String) :
    Except Err (List (Nat × Nat)) :=
  match resolve_indices sourceNames requested with
  | Except.error e => Except.error e
  | Except.ok indices =>
      match sort_indices indices with
      | [] => Except.ok []
      | x :: xs => Except.ok (build_ranges x x xs)

/-- The channel-name assembly of image::read (image.h, lines 433-504): for
each contiguous run, in run order, the source channel name of every index
in the run is appended to the new name list handed to the image
constructor. -/
def read_channelnames (sourceNames requested : List String) :
    Except Err (List String) :=
  match get_contiguous_channels sourceNames requested with
  | Except.error e => Except.error e
  | Except.ok ranges =>
      Except.ok
        ((ranges.flatMap (fun p => List.range' p.1 (p.2 - p.1))).map
          (fun i => sourceNames.getD i ""))

/-- The number of channels image::read pushes (image.h, lines 487-498):
one channel per index of each contiguous run. -/
def read_num_channels (sourceNames requested : List String) : Except Err Nat :=
  match get_contiguous_channels sourceNames requested with
  | Except.error e => Except.error e
  | Except.ok ranges => Except.ok ((ranges.map (fun p => p.2 - p.1)).sum)

/-! ## Helper lemmas -/

/-- The full-chunk loop of the lazy_schunk constructor never exits: its
range is the single-argument std::views::iota view, whose sentinel is
unreachable, so every fuel bound is exhausted. -/
theorem lazy_ctor_loop_eq_none {T : Type} (v : T) (e : Nat) :
    ∀ (fuel position : Nat) (acc : List (LazyChunk T)),
      lazy_ctor_loop v e fuel position acc = none := by
  intro fuel
  induction fuel with
  | zero =>
      intro position acc
      simp [lazy_ctor_loop, iota_unbounded_done]
  | succ f ih =>
      intro position acc
      simp only [lazy_ctor_loop, iota_unbounded_done, Bool.false_eq_true, if_false]
      exact ih _ _

/-! ## Claim theorems -/

/-- C2: the claim states that the coordinate helpers of a chunk_span over
element type T at chunk index i satisfy
x(l) = (i * (chunk_size / sizeof(T)) + l) mod w and
y(l) = (i * (chunk_size / sizeof(T)) + l) div w.  The code computes the
base offset as i * chunk_size with chunk_size in bytes, not in elements.
Evaluated at the failing input sizeof(T) = 2, chunk_size = 128 bytes,
width = 10, chunk index 1, local index 0: the code yields (x, y) = (8, 12)
while the claimed formulas yield (4, 6). -/
theorem C2_chunk_span_xy_use_byte_offset :
    chunk_span_x 128 10 1 0 = 8 ∧
    chunk_span_y 128 10 1 0 = 12 ∧
    (1 * (128 / 2) + 0) % 10 = 4 ∧
    (1 * (128 / 2) + 0) / 10 = 6 ∧
    (8 : Nat) ≠ 4 ∧ (12 : Nat) ≠ 6 := by
  decide

/-- C3: the claim states the lazy_schunk fill constructor terminates and
produces exactly ceil(n * sizeof(T) / chunk_size) chunks.  The full-chunk
loop iterates the unbounded single-argument std::views::iota view, so the
construction never completes: at the failing input sizeof(T) = 1,
value 0, n = 4 elements, chunk_size = 2 (expected: 2 chunks), every fuel
bound whatsoever is exhausted with the constructor still looping. -/
theorem C3_lazy_schunk_ctor_never_completes :
    ∀ fuel : Nat, lazy_schunk_ctor 1 (0 : Nat) 4 2 fuel = Except.ok none := by
  intro fuel
  simp [lazy_schunk_ctor, lazy_ctor_loop_eq_none]

/-- C4: the claim states that to_schunk materialises a Fill slot whose
element count differs from the full-chunk count (the last slot) from a
buffer of its own size, so that every produced chunk decompresses to the
lazy slot content.  The code appends the once-compressed full-chunk fill
buffer for every Fill slot: at the failing input (slots Fill(7, 2) and
Fill(7, 1), chunk_size 2, sizeof(T) 1) the last produced chunk decompresses
to two copies of 7 although the slot holds a single element. -/
theorem C4_to_schunk_reuses_full_fill_buffer_for_short_last_slot :
    to_schunk (0 : Nat) 2 1
        [{ value := LazyVal.fill 7, numElements := 2 },
          { value := LazyVal.fill 7, numElements := 1 }] = [[7, 7], [7, 7]] ∧
    List.map lazy_chunk_content
        [{ value := LazyVal.fill (7 : Nat), numElements := 2 },
          { value := LazyVal.fill 7, numElements := 1 }] = [[7, 7], [7]] ∧
    ([[7, 7], [7, 7]] : List (List Nat)) ≠ [[7, 7], [7]] := by
  decide

/-- C5 counterexample: the claim states every decompression fails iff the
codec status is negative or the returned byte count is not a positive
multiple of sizeof(T).  At byte count 0 with sizeof(T) = 2 the iterator
path succeeds although 0 is not a positive multiple, and at byte count 3
the schunk read path (plain blosc2::decompress) succeeds although 3 is not
a multiple of 2. -/
theorem C5_counterexample_zero_and_unchecked_paths :
    decompress_chunk 2 0 = Except.ok 0 ∧
    ¬ (0 < (0 : Int).toNat ∧ (0 : Int).toNat % 2 = 0) ∧
    blosc2_decompress 3 = Except.ok 3 ∧
    (3 : Int).toNat % 2 ≠ 0 := by
  refine ⟨rfl, by decide, rfl, by decide⟩

/-- C5 as amended: on the iterator dereference path a decompression fails
iff the codec status is negative or the returned byte count is not a
multiple of sizeof(T) (zero is accepted), and otherwise the byte count is
returned unchanged; blosc2::decompress itself, used unguarded by the
schunk read paths, fails exactly on a negative status. -/
theorem C5_decompress_failure_characterisation :
    ∀ (sizeofT : Nat) (codecResult : Int),
      ((∃ e, decompress_chunk sizeofT codecResult = Except.error e) ↔
        codecResult < 0 ∨ codecResult.toNat % sizeofT ≠ 0) ∧
      (¬ codecResult < 0 → codecResult.toNat % sizeofT = 0 →
        decompress_chunk sizeofT codecResult = Except.ok codecResult.toNat) ∧
      ((∃ e, blosc2_decompress codecResult = Except.error e) ↔ codecResult < 0) ∧
      (¬ codecResult < 0 → blosc2_decompress codecResult = Except.ok codecResult.toNat) := by
  intro sizeofT codecResult
  by_cases hneg : codecResult < 0
  · simp [decompress_chunk, blosc2_decompress, hneg]
  · by_cases hmod : codecResult.toNat % sizeofT = 0
    · simp [decompress_chunk, blosc2_decompress, hneg, hmod]
    · simp [decompress_chunk, blosc2_decompress, hneg, hmod]

/-- C5 witness: the characterisation applied at sizeof(T) = 4 and codec
status 8. -/
theorem C5_witness_byte_count_returned :
    decompress_chunk 4 8 = Except.ok (8 : Int).toNat :=
  (C5_decompress_failure_characterisation 4 8).2.1 (by decide) (by decide)

/-- C9: the claim states that the chunk accessors throw std::out_of_range
for every index at or past num_chunks, in particular for every index of an
empty schunk.  The guard index > m_Chunks.size() - 1 underflows in size_t
arithmetic when the chunk list is empty, so no index is ever rejected
there and the accessors read the chunk vector out of bounds (result
.ok none), while for a non-empty schunk the guard is correct. -/
theorem C9_empty_schunk_guard_never_throws :
    chunk_index_guard_throws 0 0 = false ∧
    lazy_chunk_size_at ([] : List (LazyChunk Nat)) 0 = Except.ok none ∧
    lazy_chunk_at ([] : List (LazyChunk Nat)) 0 = Except.ok none ∧
    chunk_index_guard_throws 0 123456 = false ∧
    chunk_index_guard_throws 2 2 = true ∧
    chunk_index_guard_throws 2 1 = false := by
  refine ⟨by decide, rfl, rfl, by decide, by decide, by decide⟩

/-- C1 counterexample: the claim states a traversal that only dereferences
and advances performs no write-back.  On the two-chunk channel holding
[1] and [2], the read-only traversal followed by iterator destruction
performs the write-backs logged at indices 0 and 1. -/
theorem C1_counterexample_read_only_traversal_writes_back :
    Except.map IterState.log (full_read_traversal [[(1 : Nat)], [2]]) =
      Except.ok [0, 1] ∧
    ([0, 1] : List Nat) ≠ [] := by
  refine ⟨rfl, by decide⟩


theorem set_getD_self {α : Type} :
    ∀ (l : List α) (i : Nat) (d : α), i < l.length → l.set i (l.getD i d) = l := by
  intro l
  induction l with
  | nil => intro i d h; simp at h
  | cons a t ih =>
      intro i d h
      cases i with
      | zero => simp
      | succ j =>
          simp only [List.getD_cons_succ, List.set_cons_succ, List.cons.injEq, true_and]
          exact ih j d (by simpa using h)

theorem run_read_from {T : Type} (l : List (List T)) :
    ∀ (k i : Nat) (acc : List Nat), 0 < i → i + k = l.length →
      run_ops (read_traversal_ops T k)
          { chunks := l, chunkIndex := i, buffer := l.getD (i - 1) [],
            refitted := true, log := acc } =
        Except.ok
          { chunks := l, chunkIndex := l.length, buffer := l.getD (l.length - 1) [],
            refitted := true, log := acc ++ List.range' (i - 1) k } := by
  intro k
  induction k with
  | zero =>
      intro i acc hi hik
      have hieq : i = l.length := by omega
      subst hieq
      simp [read_traversal_ops, run_ops, List.range']
  | succ k ih =>
      intro i acc hi hik
      have hle : ¬ l.length ≤ i := by omega
      have hlt2 : ¬ l.length < i + 1 := by omega
      have hi0 : i ≠ 0 := by omega
      have hset : l.set (i - 1) (l.getD (i - 1) []) = l :=
        set_getD_self l (i - 1) [] (by omega)
      have hstep := ih (i + 1) (acc ++ [i - 1]) (by omega) (by omega)
      simp only [read_traversal_ops, run_ops, iter_deref, iter_advance, update_chunk,
        hle, hi0, hset, if_false, ite_false, ne_eq, not_false_eq_true, and_true, if_true]
      simp only [hlt2, if_false, ite_false]
      rw [show (i + 1) - 1 = i from by omega] at hstep
      rw [hstep]
      rw [List.range'_succ, show i - 1 + 1 = i from by omega]
      simp

theorem run_advance_only {T : Type} (l : List (List T)) :
    ∀ (k i : Nat) (b : List T) (r : Bool) (acc : List Nat), i + k ≤ l.length →
      run_ops (List.replicate k (IterOp.advance : IterOp T))
          { chunks := l, chunkIndex := i, buffer := b, refitted := r, log := acc } =
        Except.ok
          { chunks := l, chunkIndex := i + k, buffer := b, refitted := r, log := acc } := by
  intro k
  induction k with
  | zero => intro i b r acc hik; simp [run_ops]
  | succ k ih =>
      intro i b r acc hik
      have hlt : ¬ l.length < i + 1 := by omega
      simp only [List.replicate_succ, run_ops, iter_advance, hlt, if_false, ite_false]
      rw [ih (i + 1) b r acc (by omega)]
      congr 2
      omega

/-- C1 as amended: dereferencing marks the scratch buffer as refitted, so a
traversal that only dereferences and advances does write back: each
dereference past the first writes the previous chunk back and destruction
writes the last dereferenced chunk back, re-compressing the unmodified
content, so the decompressed chunk contents are unchanged while the
write-back log of a full read-only traversal is exactly the index range
0..num_chunks-1; a traversal that never dereferences writes nothing
back. -/
theorem C1_read_only_traversal_behaviour {T : Type} (chunks : List (List T))
    (h : chunks ≠ []) :
    Except.map IterState.chunks (full_read_traversal chunks) = Except.ok chunks ∧
    Except.map IterState.log (full_read_traversal chunks) =
      Except.ok (List.range chunks.length) ∧
    (∀ k, k ≤ chunks.length →
      run_ops (List.replicate k (IterOp.advance : IterOp T)) (iter_begin chunks) =
        Except.ok
          { chunks := chunks, chunkIndex := k, buffer := [], refitted := false,
            log := [] }) := by
  have hn : chunks.length ≠ 0 := by
    intro h0
    exact h (List.eq_nil_of_length_eq_zero h0)
  obtain ⟨m, hm⟩ : ∃ m, chunks.length = m + 1 := ⟨chunks.length - 1, by omega⟩
  have hfull : run_ops (read_traversal_ops T chunks.length) (iter_begin chunks) =
      Except.ok
        { chunks := chunks, chunkIndex := chunks.length,
          buffer := chunks.getD (chunks.length - 1) [], refitted := true,
          log := List.range' 0 m } := by
    rw [hm]
    have hle : ¬ chunks.length ≤ 0 := by omega
    have hlt : ¬ chunks.length < 0 + 1 := by omega
    simp only [read_traversal_ops, run_ops, iter_begin, iter_deref, iter_advance,
      update_chunk, hle, hlt, if_false, ite_false, Bool.false_eq_true, false_and,
      and_false]
    have hstep := run_read_from chunks m 1 [] (by omega) (by omega)
    simp only [Nat.sub_self, List.nil_append, show (1 : Nat) - 1 = 0 from rfl] at hstep
    rw [hstep]
    simp [hm]
  have hset : chunks.set (chunks.length - 1) (chunks.getD (chunks.length - 1) []) =
      chunks := set_getD_self chunks (chunks.length - 1) [] (by omega)
  have hsetq : chunks.set (chunks.length - 1) (chunks[chunks.length - 1]?.getD []) =
      chunks := by
    simpa [List.getD_eq_getElem?_getD] using hset
  have hdestroy : full_read_traversal chunks =
      Except.ok
        { chunks := chunks, chunkIndex := chunks.length,
          buffer := chunks.getD (chunks.length - 1) [], refitted := true,
          log := List.range' 0 m ++ [chunks.length - 1] } := by
    simp only [full_read_traversal]
    rw [hfull]
    simp [iter_destroy, update_chunk, hset, hsetq]
  refine ⟨?_, ?_, ?_⟩
  · rw [hdestroy]
    simp [Except.map]
  · rw [hdestroy]
    simp [Except.map, hm, List.range_succ, List.range_eq_range']
  · intro k hk
    have := run_advance_only chunks k 0 [] false [] (by omega)
    simpa [iter_begin] using this

theorem sum_chunkify_go {T : Type} (elemsPerChunk : Nat) :
    ∀ (fuel : Nat) (data : List T),
      (elemsPerChunk = 0 ∨ data.length ≤ fuel) →
      ((chunkify_go elemsPerChunk fuel data).map List.length).sum = data.length := by
  intro fuel
  induction fuel with
  | zero =>
      intro data hcond
      cases data with
      | nil => simp [chunkify_go]
      | cons a t => simp [chunkify_go]
  | succ fuel ih =>
      intro data hcond
      cases data with
      | nil => simp [chunkify_go]
      | cons a t =>
          rw [show chunkify_go elemsPerChunk (fuel + 1) (a :: t) =
              (if (a :: t).length ≤ elemsPerChunk then [a :: t]
                else (a :: t).take elemsPerChunk ::
                  chunkify_go elemsPerChunk fuel ((a :: t).drop elemsPerChunk)) from rfl]
          by_cases hle : (a :: t).length ≤ elemsPerChunk
          · rw [if_pos hle]
            simp
          · rw [if_neg hle]
            have hlt : elemsPerChunk < (a :: t).length := Nat.lt_of_not_le hle
            have hdrop : elemsPerChunk = 0 ∨ ((a :: t).drop elemsPerChunk).length ≤ fuel := by
              rcases Nat.eq_zero_or_pos elemsPerChunk with h0 | hpos
              · exact Or.inl h0
              · right
                rw [List.length_drop]
                rcases hcond with h0 | hlen
                · omega
                · omega
            rw [List.map_cons, List.sum_cons, ih _ hdrop, List.length_take,
              List.length_drop, min_eq_left (Nat.le_of_lt hlt)]
            omega

theorem sum_chunkify {T : Type} (elemsPerChunk : Nat) (data : List T) :
    ((chunkify elemsPerChunk data).map List.length).sum = data.length :=
  sum_chunkify_go elemsPerChunk data.length data (Or.inr (Nat.le_refl _))

theorem run_ops_append {T : Type} :
    ∀ (xs ys : List (IterOp T)) (st : IterState T),
      run_ops (xs ++ ys) st =
        match run_ops xs st with
        | Except.error e => Except.error e
        | Except.ok st2 => run_ops ys st2 := by
  intro xs
  induction xs with
  | nil => intro ys st; simp [run_ops]
  | cons op rest ih =>
      intro ys st
      simp only [List.cons_append, run_ops]
      cases hop :
          (match op with
            | IterOp.deref => iter_deref st
            | IterOp.advance => iter_advance st
            | IterOp.write i v => Except.ok (view_write st i v)) with
      | error e => simp
      | ok st2 => simp [ih]

theorem run_writes {T : Type} :
    ∀ (ws : List (Nat × T)) (st : IterState T),
      ∃ b : List T,
        run_ops (ws.map (fun p => IterOp.write p.1 p.2)) st =
          Except.ok { st with buffer := b } ∧
        b.length = st.buffer.length := by
  intro ws
  induction ws with
  | nil =>
      intro st
      exact ⟨st.buffer, by simp [run_ops], rfl⟩
  | cons w rest ih =>
      intro st
      obtain ⟨b, hrun, hlen⟩ := ih { st with buffer := st.buffer.set w.1 w.2 }
      refine ⟨b, ?_, ?_⟩
      · simp only [List.map_cons, run_ops, view_write]
        exact hrun
      · simpa [List.length_set] using hlen

theorem getD_map_length {T : Type} (c : List (List T)) (j : Nat) (h : j < c.length) :
    (c.map List.length).getD j 0 = (c.getD j []).length := by
  simp [List.getD_eq_getElem?_getD, List.getElem?_map, List.getElem?_eq_getElem h]

theorem run_pass_from {T : Type} (M : List Nat) :
    ∀ (wss : List (List (Nat × T))) (c : List (List T)) (i : Nat) (b : List T)
      (acc : List Nat),
      0 < i → i + wss.length = c.length → c.map List.length = M →
      b.length = (c.getD (i - 1) []).length →
      ∃ st : IterState T,
        run_ops (pass_ops wss) (IterState.mk c i b true acc) = Except.ok st ∧
        st.chunks.map List.length = M ∧ st.chunkIndex = st.chunks.length ∧
        st.chunks.length = c.length ∧ st.refitted = true ∧
        st.buffer.length = (st.chunks.getD (st.chunks.length - 1) []).length := by
  intro wss
  induction wss with
  | nil =>
      intro c i b acc hi hlen hM hb
      have hieq : i = c.length := by simpa using hlen
      refine ⟨IterState.mk c i b true acc,
        by simp [pass_ops, run_ops], hM, by simp [hieq], rfl, rfl, ?_⟩
      simpa [hieq] using hb
  | cons ws rest ih =>
      intro c i b acc hi hlen hM hb
      have hrl : i + (rest.length + 1) = c.length := by simpa using hlen
      have hilt : i < c.length := by omega
      have hc2len : (c.set (i - 1) b).length = c.length := List.length_set c (i - 1) b
      have hMlen : M.length = c.length := by rw [← hM, List.length_map]
      have hc2M : (c.set (i - 1) b).map List.length = M := by
        rw [List.map_set, hM, hb]
        have hgd : (c.getD (i - 1) []).length = M.getD (i - 1) 0 := by
          rw [← hM]
          exact (getD_map_length c (i - 1) (by omega)).symm
        rw [hgd]
        exact set_getD_self M (i - 1) 0 (by omega)
      have hderef : iter_deref (IterState.mk c i b true acc) =
          Except.ok (IterState.mk (c.set (i - 1) b) i
            ((c.set (i - 1) b).getD i []) true (acc ++ [i - 1])) := by
        simp [iter_deref, update_chunk, show ¬ c.length ≤ i from by omega,
          show i ≠ 0 from by omega]
      obtain ⟨b2, hb2run, hb2len⟩ := run_writes ws
        (IterState.mk (c.set (i - 1) b) i ((c.set (i - 1) b).getD i []) true
          (acc ++ [i - 1]))
      have hadv : iter_advance
          (IterState.mk (c.set (i - 1) b) i b2 true (acc ++ [i - 1])) =
          Except.ok (IterState.mk (c.set (i - 1) b) (i + 1) b2 true
            (acc ++ [i - 1])) := by
        simp [iter_advance, List.length_set, show i + 1 ≤ c.length from by omega]
      obtain ⟨st, hrun, h1, h2, h3, h4, h5⟩ := ih (c.set (i - 1) b) (i + 1) b2
        (acc ++ [i - 1]) (by omega) (by rw [hc2len]; omega) hc2M
        (by simpa using hb2len)
      refine ⟨st, ?_, h1, h2, by rw [h3, hc2len], h4, h5⟩
      simp only [pass_ops, run_ops, hderef]
      rw [run_ops_append, hb2run]
      simp only [run_ops, hadv]
      exact hrun

theorem destroy_preserves_lengths {T : Type} (st : IterState T)
    (h1 : st.chunkIndex = st.chunks.length)
    (h2 : st.buffer.length = (st.chunks.getD (st.chunks.length - 1) []).length)
    (h3 : st.chunks ≠ []) :
    (iter_destroy st).chunks.map List.length = st.chunks.map List.length := by
  have hlen : st.chunks.length ≠ 0 := by
    intro h0
    exact h3 (List.eq_nil_of_length_eq_zero h0)
  cases hr : st.refitted with
  | false => simp [iter_destroy, hr]
  | true =>
      simp only [iter_destroy, hr, if_pos rfl, update_chunk, h1, if_true, ite_true]
      rw [List.map_set, h2]
      have hgd : (st.chunks.getD (st.chunks.length - 1) []).length =
          (st.chunks.map List.length).getD (st.chunks.length - 1) 0 :=
        (getD_map_length st.chunks (st.chunks.length - 1) (by omega)).symm
      rw [hgd]
      exact set_getD_self (st.chunks.map List.length) (st.chunks.length - 1) 0
        (by rw [List.length_map]; omega)

theorem build_channels_ok {T : Type} (sizeofT width height chunkSize : Nat) :
    ∀ buffers : List (List T),
      (∀ b ∈ buffers, b.length = width * height) →
      ∃ chs, build_channels sizeofT width height chunkSize buffers = Except.ok chs ∧
        chs.length = buffers.length := by
  intro buffers
  induction buffers with
  | nil => intro hall; exact ⟨[], rfl, rfl⟩
  | cons b rest ih =>
      intro hall
      obtain ⟨chs, hrest, hlen⟩ := ih (fun x hx => hall x (List.mem_cons_of_mem b hx))
      have hb : b.length = width * height := hall b (List.mem_cons_self b rest)
      refine ⟨chunkify
        (align_chunk_to_scanlines_bytes sizeofT width chunkSize / sizeofT) b :: chs, ?_, ?_⟩
      · simp only [build_channels, channel_ctor_span, hb, ne_eq, not_true_eq_false,
          if_false, ite_false, hrest]
      · simp [hlen]

/-- C6: every channel constructor either throws on an element-count
mismatch between the supplied data (or schunk) and width * height, or
establishes that the per-chunk element counts sum to width * height; a
complete single-pass traversal with arbitrary element writes through the
views (the only storage-mutating channel operation) preserves the
per-chunk element counts, hence the total. -/
theorem C6_channel_constructors_establish_element_total :
    (∀ (T : Type) (sizeofT : Nat) (data : List T) (width height chunkSize : Nat),
      ((∃ e, channel_ctor_span sizeofT data width height chunkSize = Except.error e) ↔
        data.length ≠ width * height) ∧
      (∀ chunks, channel_ctor_span sizeofT data width height chunkSize = Except.ok chunks →
        (chunks.map List.length).sum = width * height)) ∧
    (∀ (T : Type) (sv : SchunkVar T) (width height : Nat),
      ((∃ e, channel_ctor_schunk sv width height = Except.error e) ↔
        schunk_var_size sv ≠ width * height) ∧
      (∀ sv2, channel_ctor_schunk sv width height = Except.ok sv2 →
        schunk_var_size sv2 = width * height)) ∧
    (∀ (T : Type) (chunks : List (List T)) (writes : List (List (Nat × T))),
      writes.length = chunks.length → chunks ≠ [] →
      ∃ st, modify_traversal chunks writes = Except.ok st ∧
        (st.chunks.map List.length).sum = (chunks.map List.length).sum) := by
  refine ⟨?_, ?_, ?_⟩
  · intro T sizeofT data width height chunkSize
    by_cases hmis : data.length = width * height
    · constructor
      · constructor
        · intro ⟨e, he⟩
          simp [channel_ctor_span, hmis] at he
        · intro hne
          exact absurd hmis hne
      · intro chunks hok
        simp only [channel_ctor_span, hmis, ne_eq, not_true_eq_false, if_false,
          ite_false, Except.ok.injEq] at hok
        rw [← hok, ← hmis]
        exact sum_chunkify _ data
    · constructor
      · constructor
        · intro _
          exact hmis
        · intro _
          exact ⟨Err.runtimeError, by simp [channel_ctor_span, hmis]⟩
      · intro chunks hok
        simp [channel_ctor_span, hmis] at hok
  · intro T sv width height
    cases sv with
    | eager cs =>
        by_cases hmis : (cs.map List.length).sum = width * height
        · exact ⟨⟨fun ⟨e, he⟩ => by simp [channel_ctor_schunk, hmis] at he,
            fun hne => absurd hmis (by simpa [schunk_var_size] using hne)⟩,
            fun sv2 hok => by
              simp only [channel_ctor_schunk, hmis, ne_eq, not_true_eq_false, if_false,
                ite_false, Except.ok.injEq] at hok
              rw [← hok]
              simpa [schunk_var_size] using hmis⟩
        · exact ⟨⟨fun _ => by simpa [schunk_var_size] using hmis,
            fun _ => ⟨Err.invalidArgument, by simp [channel_ctor_schunk, hmis]⟩⟩,
            fun sv2 hok => by simp [channel_ctor_schunk, hmis] at hok⟩
    | lazy cs =>
        by_cases hmis : lazy_schunk_size cs = width * height
        · exact ⟨⟨fun ⟨e, he⟩ => by simp [channel_ctor_schunk, hmis] at he,
            fun hne => absurd hmis (by simpa [schunk_var_size] using hne)⟩,
            fun sv2 hok => by
              simp only [channel_ctor_schunk, hmis, ne_eq, not_true_eq_false, if_false,
                ite_false, Except.ok.injEq] at hok
              rw [← hok]
              simpa [schunk_var_size] using hmis⟩
        · exact ⟨⟨fun _ => by simpa [schunk_var_size] using hmis,
            fun _ => ⟨Err.badVariantAccess, by simp [channel_ctor_schunk, hmis]⟩⟩,
            fun sv2 hok => by simp [channel_ctor_schunk, hmis] at hok⟩
  · intro T chunks writes hwlen hne
    have hn : chunks.length ≠ 0 := by
      intro h0
      exact hne (List.eq_nil_of_length_eq_zero h0)
    cases writes with
    | nil =>
        exfalso
        rw [← hwlen] at hn
        exact hn rfl
    | cons w0 wrest =>
        have hderef0 : iter_deref (iter_begin chunks) =
            Except.ok (IterState.mk chunks 0 (chunks.getD 0 []) true []) := by
          simp [iter_deref, iter_begin, update_chunk, hne,
            show ¬ chunks.length ≤ 0 from by omega]
        obtain ⟨b2, hw, hblen⟩ := run_writes w0
          (IterState.mk chunks 0 (chunks.getD 0 []) true [])
        have hadv0 : iter_advance (IterState.mk chunks 0 b2 true []) =
            Except.ok (IterState.mk chunks 1 b2 true []) := by
          simp [iter_advance, hne, show 1 ≤ chunks.length from by omega]
        obtain ⟨st, hrun, h1, h2, h3, h4, h5⟩ :=
          run_pass_from (chunks.map List.length) wrest chunks 1 b2 []
            (by omega) (by simp at hwlen; omega) rfl (by simpa using hblen)
        have hfullrun : run_ops (pass_ops (w0 :: wrest)) (iter_begin chunks) =
            Except.ok st := by
          simp only [pass_ops, run_ops, hderef0]
          rw [run_ops_append, hw]
          simp only [run_ops, hadv0]
          exact hrun
        have hdp := destroy_preserves_lengths st (by rw [h2]) h5
          (by
            intro h0
            rw [h0] at h3
            simp at h3
            omega)
        refine ⟨iter_destroy st, ?_, ?_⟩
        · simp [modify_traversal, hfullrun]
        · rw [hdp, h1]

theorem build_channels_length {T : Type} (sizeofT width height chunkSize : Nat) :
    ∀ (buffers : List (List T)) (chs : List (List (List T))),
      build_channels sizeofT width height chunkSize buffers = Except.ok chs →
      chs.length = buffers.length := by
  intro buffers
  induction buffers with
  | nil =>
      intro chs h
      simp only [build_channels, Except.ok.injEq] at h
      rw [← h]
      rfl
  | cons b rest ih =>
      intro chs h
      simp only [build_channels] at h
      cases hspan : channel_ctor_span sizeofT b width height chunkSize with
      | error e => rw [hspan] at h; simp at h
      | ok ch =>
          rw [hspan] at h
          cases hrest : build_channels sizeofT width height chunkSize rest with
          | error e => rw [hrest] at h; simp at h
          | ok chs2 =>
              rw [hrest] at h
              simp only [Except.ok.injEq] at h
              rw [← h]
              simp [ih chs2 hrest]

theorem ctor_names_invariant (n : Nat) (ns : List String) :
    ctor_names n ns = [] ∨ (ctor_names n ns).length = n := by
  by_cases hn : ns.length = n
  · right
    simp [ctor_names, hn]
  · by_cases h0 : ns.length = 0
    · left
      have : ns = [] := List.eq_nil_of_length_eq_zero h0
      subst this
      simp [ctor_names]
    · left
      simp [ctor_names, hn, h0]

theorem add_channel_keeps_invariant {C : Type} (st : ImageState C) (ch : C)
    (name : Option String) (h : names_invariant st) :
    names_invariant (add_channel st ch name) := by
  rcases h with h0 | hlen
  · left
    simp [add_channel, h0]
  · by_cases h0 : st.names = []
    · left
      simp [add_channel, h0]
    · right
      have hpos : st.names.length > 0 := by
        cases hn : st.names with
        | nil => exact absurd hn h0
        | cons a t => simp [hn]
      simp only [add_channel, hpos, if_pos, List.length_append, List.length_cons,
        List.length_nil]
      omega

/-- C8: an image constructed from channel buffers with a non-empty name
list of mismatching length succeeds: the names are dropped (empty name
list) with a warning, and the image holds one channel per supplied buffer;
the constructor from built channels behaves identically. -/
theorem C8_name_count_mismatch_is_nonfatal :
    (∀ (T : Type) (sizeofT : Nat) (buffers : List (List T))
        (width height chunkSize : Nat) (ns : List String),
      ns ≠ [] → ns.length ≠ buffers.length →
      (∀ b ∈ buffers, b.length = width * height) →
      ∃ st, image_ctor_buffers sizeofT buffers width height ns chunkSize =
          Except.ok st ∧
        st.channels.length = buffers.length ∧ st.names = []) ∧
    (∀ (C : Type) (channels : List C) (ns : List String),
      ns ≠ [] → ns.length ≠ channels.length →
      (image_ctor_channels channels ns).channels = channels ∧
      (image_ctor_channels channels ns).names = []) := by
  constructor
  · intro T sizeofT buffers width height chunkSize ns hne hmis hall
    obtain ⟨chs, hbuild, hlen⟩ :=
      build_channels_ok sizeofT width height chunkSize buffers hall
    have hns0 : ns.length ≠ 0 := by
      intro h0
      exact hne (List.eq_nil_of_length_eq_zero h0)
    refine ⟨ImageState.mk chs [], ?_, hlen, rfl⟩
    simp [image_ctor_buffers, hbuild, ctor_names, hmis, hns0]
  · intro C channels ns hne hmis
    have hns0 : ns.length ≠ 0 := by
      intro h0
      exact hne (List.eq_nil_of_length_eq_zero h0)
    exact ⟨rfl, by simp [image_ctor_channels, ctor_names, hmis, hns0]⟩

/-- C8 witness: two one-pixel channels with a single name supplied. -/
theorem C8_witness_two_channels_one_name :
    (["a"] : List String) ≠ [] ∧ (["a"] : List String).length ≠ 2 ∧
    Except.map (fun st => (st.channels.length, st.names))
        (image_ctor_buffers 1 [[(1 : Nat)], [2]] 1 1 ["a"] 2) =
      Except.ok (2, ([] : List String)) := by
  refine ⟨by decide, by decide, ?_⟩
  obtain ⟨st, heq, hlen, hnames⟩ :=
    C8_name_count_mismatch_is_nonfatal.1 Nat 1 [[(1 : Nat)], [2]] 1 1 2 ["a"]
      (by decide) (by decide) (by decide)
  rw [heq]
  simp [Except.map, hlen, hnames]

/-- C10: the channel-name list invariant (empty, or one name per channel)
is established by both image constructors and preserved by every image
operation touching it: add_channel appends the supplied name (or the empty
string) exactly when the name list is non-empty, and the channelnames
setter replaces the list only when its length matches the channel count,
throwing std::invalid_argument otherwise. -/
theorem C10_channelname_list_invariant :
    (∀ (C : Type) (st : ImageState C) (ch : C) (name : Option String),
      (st.names ≠ [] →
        (add_channel st ch name).names = st.names ++ [name.getD ""]) ∧
      (st.names = [] → (add_channel st ch name).names = []) ∧
      (add_channel st ch name).channels = st.channels ++ [ch] ∧
      (names_invariant st → names_invariant (add_channel st ch name))) ∧
    (∀ (C : Type) (st : ImageState C) (newNames : List String),
      (newNames.length = st.channels.length →
        set_channelnames st newNames = Except.ok (ImageState.mk st.channels newNames)) ∧
      (newNames.length ≠ st.channels.length →
        set_channelnames st newNames = Except.error Err.invalidArgument) ∧
      (∀ st2, set_channelnames st newNames = Except.ok st2 → names_invariant st2)) ∧
    (∀ (T : Type) (sizeofT : Nat) (st : ImageState (List (List T))) (data : List T)
        (width height chunkSize : Nat) (name : Option String)
        (st2 : ImageState (List (List T))),
      names_invariant st →
      add_channel_span sizeofT st data width height chunkSize name = Except.ok st2 →
      names_invariant st2) ∧
    (∀ (C : Type) (channels : List C) (ns : List String),
      names_invariant (image_ctor_channels channels ns)) ∧
    (∀ (T : Type) (sizeofT : Nat) (buffers : List (List T))
        (width height chunkSize : Nat) (ns : List String)
        (st : ImageState (List (List T))),
      image_ctor_buffers sizeofT buffers width height ns chunkSize = Except.ok st →
      names_invariant st) := by
  refine ⟨?_, ?_, ?_, ?_, ?_⟩
  · intro C st ch name
    refine ⟨?_, ?_, rfl, add_channel_keeps_invariant st ch name⟩
    · intro hne
      have hpos : st.names.length > 0 := by
        cases hn : st.names with
        | nil => exact absurd hn hne
        | cons a t => simp [hn]
      simp [add_channel, hpos]
    · intro h0
      simp [add_channel, h0]
  · intro C st newNames
    refine ⟨?_, ?_, ?_⟩
    · intro heq
      simp [set_channelnames, heq]
    · intro hne
      simp [set_channelnames, hne]
    · intro st2 hok
      by_cases hlen : newNames.length = st.channels.length
      · simp only [set_channelnames, hlen, ne_eq, not_true_eq_false, if_false,
          ite_false, Except.ok.injEq] at hok
        rw [← hok]
        right
        simpa using hlen
      · simp [set_channelnames, hlen] at hok
  · intro T sizeofT st data width height chunkSize name st2 hinv hok
    simp only [add_channel_span] at hok
    cases hspan : channel_ctor_span sizeofT data width height chunkSize with
    | error e => rw [hspan] at hok; simp at hok
    | ok ch =>
        rw [hspan] at hok
        simp only [Except.ok.injEq] at hok
        rw [← hok]
        exact add_channel_keeps_invariant st ch name hinv
  · intro C channels ns
    rcases ctor_names_invariant channels.length ns with h | h
    · exact Or.inl h
    · exact Or.inr h
  · intro T sizeofT buffers width height chunkSize ns st hok
    simp only [image_ctor_buffers] at hok
    cases hbuild : build_channels sizeofT width height chunkSize buffers with
    | error e => rw [hbuild] at hok; simp at hok
    | ok chs =>
        rw [hbuild] at hok
        simp only [Except.ok.injEq] at hok
        rw [← hok]
        have hlen := build_channels_length sizeofT width height chunkSize buffers chs hbuild
        rcases ctor_names_invariant buffers.length ns with h | h
        · exact Or.inl h
        · right
          show (ctor_names buffers.length ns).length = chs.length
          rw [hlen]
          exact h

/-- C10 witness: the operations applied to a two-channel image named
a, b. -/
theorem C10_witness_two_channel_image :
    (add_channel (ImageState.mk [1, 2] ["a", "b"]) 3 (some "c")).names =
      ["a", "b", "c"] ∧
    set_channelnames (ImageState.mk [1, 2] ["a", "b"]) ["x", "y"] =
      Except.ok (ImageState.mk [1, 2] ["x", "y"]) ∧
    names_invariant (add_channel (ImageState.mk [1, 2] ["a", "b"]) 3 (some "c")) := by
  refine ⟨?_, ?_, ?_⟩
  · simpa using
      (C10_channelname_list_invariant.1 Nat (ImageState.mk [1, 2] ["a", "b"]) 3
        (some "c")).1 (by decide)
  · simpa using
      (C10_channelname_list_invariant.2.1 Nat (ImageState.mk [1, 2] ["a", "b"])
        ["x", "y"]).1 (by decide)
  · exact (C10_channelname_list_invariant.1 Nat (ImageState.mk [1, 2] ["a", "b"]) 3
      (some "c")).2.2.2 (Or.inr (by decide))

/-- C1 witness: the amended behaviour applied to the three-chunk channel
holding [1], [2], [3]. -/
theorem C1_witness_three_chunk_traversal :
    ([[(1 : Nat)], [2], [3]] : List (List Nat)) ≠ [] ∧
    Except.map IterState.chunks (full_read_traversal [[(1 : Nat)], [2], [3]]) =
      Except.ok [[1], [2], [3]] ∧
    Except.map IterState.log (full_read_traversal [[(1 : Nat)], [2], [3]]) =
      Except.ok (List.range 3) := by
  refine ⟨by decide, ?_, ?_⟩
  · exact (C1_read_only_traversal_behaviour [[(1 : Nat)], [2], [3]] (by decide)).1
  · exact (C1_read_only_traversal_behaviour [[(1 : Nat)], [2], [3]] (by decide)).2.1

/-- C6 witness: a 2 by 2 channel built from four elements, and a mutating
traversal of a two-chunk channel. -/
theorem C6_witness_concrete_channel :
    ([1, 2, 3, 4] : List Nat).length = 2 * 2 ∧
    ((([[1, 2, 3, 4]] : List (List Nat)).map List.length).sum = 2 * 2) ∧
    Except.map (fun st : IterState Nat => (st.chunks.map List.length).sum)
        (modify_traversal [[1], [2]] [[(0, 5)], [(0, 6)]]) = Except.ok 2 := by
  refine ⟨by decide, ?_, ?_⟩
  · exact (C6_channel_constructors_establish_element_total.1 Nat 1
      [1, 2, 3, 4] 2 2 4).2 [[1, 2, 3, 4]] (by rfl)
  · obtain ⟨st, heq, hsum⟩ := C6_channel_constructors_establish_element_total.2.2
      Nat [[1], [2]] [[(0, 5)], [(0, 6)]] (by decide) (by decide)
    rw [heq]
    simp only [Except.map, hsum]
    norm_num

theorem build_name_map_eq_none {r : String} :
    ∀ (S : List String), r ∉ S → ∀ i, build_name_map S i r = none := by
  intro S
  induction S with
  | nil => intro _ i; rfl
  | cons s rest ih =>
      intro hmem i
      have hr : r ≠ s := fun h => hmem (h ▸ List.mem_cons_self s rest)
      have hrest : r ∉ rest := fun h => hmem (List.mem_cons_of_mem s h)
      simp [build_name_map, ih hrest (i + 1), hr]

theorem build_name_map_getD :
    ∀ (S : List String), S.Nodup → ∀ (i k : Nat), k < S.length →
      build_name_map S i (S.getD k "") = some (i + k) := by
  intro S
  induction S with
  | nil => intro _ i k hk; simp at hk
  | cons s rest ih =>
      intro hnd i k hk
      rcases List.nodup_cons.mp hnd with ⟨hs, hrest⟩
      cases k with
      | zero =>
          simp only [List.getD_cons_zero]
          simp [build_name_map, build_name_map_eq_none rest hs (i + 1)]
      | succ k2 =>
          simp only [List.getD_cons_succ]
          have hk2 : k2 < rest.length := by simpa using hk
          have hrec := ih hrest (i + 1) k2 hk2
          simp only [build_name_map, hrec]
          congr 1
          omega

theorem build_name_map_some :
    ∀ (S : List String) (i : Nat) (r : String) (j : Nat),
      build_name_map S i r = some j →
      i ≤ j ∧ j - i < S.length ∧ S.getD (j - i) "" = r := by
  intro S
  induction S with
  | nil => intro i r j h; simp [build_name_map] at h
  | cons s rest ih =>
      intro i r j h
      rw [show build_name_map (s :: rest) i r =
          (match build_name_map rest (i + 1) r with
            | some v => some v
            | none => if r = s then some i else none) from rfl] at h
      cases hrest : build_name_map rest (i + 1) r with
      | some v =>
          rw [hrest] at h
          have hv : v = j := by simpa using h
          subst hv
          obtain ⟨h1, h2, h3⟩ := ih (i + 1) r v hrest
          refine ⟨by omega, ?_, ?_⟩
          · simp only [List.length_cons]
            omega
          · have hji : v - i = (v - (i + 1)) + 1 := by omega
            rw [hji, List.getD_cons_succ]
            exact h3
      | none =>
          rw [hrest] at h
          by_cases hr : r = s
          · rw [if_pos hr] at h
            have hij : i = j := by simpa using h
            subst hij
            refine ⟨Nat.le_refl i, by simp, ?_⟩
            simp only [Nat.sub_self, List.getD_cons_zero]
            exact hr.symm
          · rw [if_neg hr] at h
            exact absurd h (by simp)

theorem mem_build_name_map_isSome {S : List String} (hS : S.Nodup) {r : String}
    (h : r ∈ S) : build_name_map S 0 r = some (((build_name_map S 0 r).getD 0)) := by
  obtain ⟨k, hk, hget⟩ := List.mem_iff_getElem.mp h
  have hmap := build_name_map_getD S hS 0 k hk
  rw [List.getD_eq_getElem S "" hk, hget] at hmap
  rw [hmap]
  simp

theorem resolve_indices_eq (S : List String) :
    ∀ R : List String, (∀ r ∈ R, r ∈ S) → S.Nodup →
      resolve_indices S R =
        Except.ok (R.map (fun r => (build_name_map S 0 r).getD 0)) := by
  intro R
  induction R with
  | nil => intro _ _; rfl
  | cons r rest ih =>
      intro hsub hS
      have hr : r ∈ S := hsub r (List.mem_cons_self r rest)
      obtain ⟨j, hj⟩ : ∃ j, build_name_map S 0 r = some j :=
        ⟨(build_name_map S 0 r).getD 0, mem_build_name_map_isSome hS hr⟩
      simp only [resolve_indices, hj,
        ih (fun x hx => hsub x (List.mem_cons_of_mem r hx)) hS]
      simp [hj]

theorem resolve_indices_error (S : List String) :
    ∀ (R : List String) (r : String), r ∈ R → r ∉ S →
      ∃ e, resolve_indices S R = Except.error e := by
  intro R
  induction R with
  | nil => intro r hr; simp at hr
  | cons r0 rest ih =>
      intro r hr hnmem
      rcases List.mem_cons.mp hr with heq | hmem
      · subst heq
        exact ⟨Err.indexOutOfRange, by
          simp [resolve_indices, build_name_map_eq_none S hnmem 0]⟩
      · cases h0 : build_name_map S 0 r0 with
        | none => exact ⟨Err.indexOutOfRange, by simp [resolve_indices, h0]⟩
        | some i =>
            obtain ⟨e, he⟩ := ih r hmem hnmem
            exact ⟨e, by simp [resolve_indices, h0, he]⟩

theorem mem_resolved_indices {S R : List String} (hS : S.Nodup)
    (hsub : ∀ r ∈ R, r ∈ S) (i : Nat) :
    i ∈ R.map (fun r => (build_name_map S 0 r).getD 0) ↔
      i < S.length ∧ S.getD i "" ∈ R := by
  constructor
  · intro hmem
    obtain ⟨r, hrR, hfr⟩ := List.mem_map.mp hmem
    have hrS := hsub r hrR
    obtain ⟨j, hj⟩ : ∃ j, build_name_map S 0 r = some j :=
      ⟨(build_name_map S 0 r).getD 0, mem_build_name_map_isSome hS hrS⟩
    have hij : j = i := by
      rw [hj] at hfr
      simpa using hfr
    subst hij
    obtain ⟨-, h2, h3⟩ := build_name_map_some S 0 r j hj
    rw [Nat.sub_zero] at h2 h3
    exact ⟨h2, h3 ▸ hrR⟩
  · intro ⟨hi, hmem⟩
    have hb := build_name_map_getD S hS 0 i hi
    refine List.mem_map.mpr ⟨S.getD i "", hmem, ?_⟩
    rw [hb]
    simp

theorem nodup_resolved_indices {S R : List String} (hS : S.Nodup) (hR : R.Nodup)
    (hsub : ∀ r ∈ R, r ∈ S) :
    (R.map (fun r => (build_name_map S 0 r).getD 0)).Nodup := by
  refine List.Nodup.map_on ?_ hR
  intro x hx y hy hfxy
  obtain ⟨jx, hjx⟩ : ∃ j, build_name_map S 0 x = some j :=
    ⟨(build_name_map S 0 x).getD 0, mem_build_name_map_isSome hS (hsub x hx)⟩
  obtain ⟨jy, hjy⟩ : ∃ j, build_name_map S 0 y = some j :=
    ⟨(build_name_map S 0 y).getD 0, mem_build_name_map_isSome hS (hsub y hy)⟩
  rw [hjx, hjy] at hfxy
  simp only [Option.getD_some] at hfxy
  subst hfxy
  obtain ⟨-, -, h3x⟩ := build_name_map_some S 0 x jx hjx
  obtain ⟨-, -, h3y⟩ := build_name_map_some S 0 y jx hjy
  rw [← h3x, ← h3y]

theorem sort_resolved_eq_filter_range {S R : List String} (hS : S.Nodup)
    (hR : R.Nodup) (hsub : ∀ r ∈ R, r ∈ S) :
    sort_indices (R.map (fun r => (build_name_map S 0 r).getD 0)) =
      (List.range S.length).filter (fun i => decide (S.getD i "" ∈ R)) := by
  have hperm1 := List.mergeSort_perm (R.map (fun r => (build_name_map S 0 r).getD 0))
    (fun a b => decide (a ≤ b))
  have hnod := nodup_resolved_indices hS hR hsub
  have hnods : (sort_indices (R.map (fun r => (build_name_map S 0 r).getD 0))).Nodup :=
    hperm1.nodup_iff.mpr hnod
  have htgtnod : ((List.range S.length).filter
      (fun i => decide (S.getD i "" ∈ R))).Nodup :=
    (List.nodup_range S.length).filter _
  have htgtlt : List.Pairwise (· < ·) ((List.range S.length).filter
      (fun i => decide (S.getD i "" ∈ R))) :=
    (List.pairwise_lt_range S.length).filter _
  have hmem : ∀ a, a ∈ sort_indices (R.map (fun r => (build_name_map S 0 r).getD 0)) ↔
      a ∈ (List.range S.length).filter (fun i => decide (S.getD i "" ∈ R)) := by
    intro a
    simp only [sort_indices]
    rw [List.Perm.mem_iff hperm1, mem_resolved_indices hS hsub a, List.mem_filter,
      List.mem_range]
    simp
  have hperm2 := (List.perm_ext_iff_of_nodup hnods htgtnod).mpr hmem
  have hsorted : List.Sorted (· ≤ ·)
      (sort_indices (R.map (fun r => (build_name_map S 0 r).getD 0))) := by
    have hpw := @List.sorted_mergeSort Nat (fun a b : Nat => decide (a ≤ b))
      (fun a b c h1 h2 => by
        simp only [decide_eq_true_eq] at h1 h2 ⊢
        omega)
      (fun a b => by
        simpa using Nat.le_total a b)
      (R.map (fun r => (build_name_map S 0 r).getD 0))
    exact hpw.imp (fun h => by simpa using h)
  exact List.eq_of_perm_of_sorted hperm2 hsorted (htgtlt.imp le_of_lt)

theorem flatMap_build_ranges :
    ∀ (xs : List Nat) (s p : Nat), List.Chain (· < ·) p xs → s ≤ p →
      (build_ranges s p xs).flatMap (fun q => List.range' q.1 (q.2 - q.1)) =
        List.range' s (p + 1 - s) ++ xs := by
  intro xs
  induction xs with
  | nil =>
      intro s p hch hsp
      simp [build_ranges]
  | cons x xs ih =>
      intro s p hch hsp
      cases hch with
      | cons hpx hch2 =>
          by_cases hx : x = p + 1
          · subst hx
            rw [show build_ranges s p ((p + 1) :: xs) = build_ranges s (p + 1) xs from
              by simp [build_ranges]]
            rw [ih s (p + 1) hch2 (by omega)]
            rw [show p + 1 + 1 - s = (p + 1 - s) + 1 from by omega, List.range'_concat]
            rw [show s + 1 * (p + 1 - s) = p + 1 from by omega]
            simp
          · rw [show build_ranges s p (x :: xs) =
                (s, p + 1) :: build_ranges x x xs from by simp [build_ranges, hx]]
            rw [List.flatMap_cons]
            rw [ih x x hch2 (Nat.le_refl x)]
            rw [show x + 1 - x = 1 from by omega]
            simp

theorem filter_range_map_getD :
    ∀ (S : List String) (p : String → Bool),
      ((List.range S.length).filter (fun i => p (S.getD i ""))).map
        (fun i => S.getD i "") = S.filter p := by
  intro S
  induction S with
  | nil => intro p; rfl
  | cons a t ih =>
      intro p
      have hcomp1 : ((fun i => p ((a :: t).getD i "")) ∘ Nat.succ) =
          fun i => p (t.getD i "") := funext fun i => by simp
      have hcomp2 : ((fun i => (a :: t).getD i "") ∘ Nat.succ) =
          fun i => t.getD i "" := funext fun i => by simp
      rw [List.length_cons, List.range_succ_eq_map, List.filter_cons,
        List.filter_map, hcomp1]
      by_cases hpa : p a = true
      · rw [if_pos (by simpa using hpa)]
        rw [List.map_cons, List.map_map, hcomp2]
        rw [List.getD_cons_zero]
        rw [ih p, List.filter_cons, if_pos hpa]
      · rw [if_neg (by simpa using hpa)]
        rw [List.map_map, hcomp2]
        rw [ih p, List.filter_cons, if_neg hpa]

theorem filter_mem_perm {S R : List String} (hS : S.Nodup) (hR : R.Nodup)
    (hsub : ∀ r ∈ R, r ∈ S) :
    (S.filter (fun s => decide (s ∈ R))).Perm R := by
  refine (List.perm_ext_iff_of_nodup (hS.filter _) hR).mpr ?_
  intro a
  rw [List.mem_filter]
  constructor
  · intro ⟨_, h⟩
    simpa using h
  · intro h
    exact ⟨hsub a h, by simpa using h⟩

/-- C7: for a source with distinct channel names, reading any reordered
duplicate-free subset of them yields channels and names in the native
source order (the filter of the source names by membership in the
request), with one channel per requested name, independently of the
request order; a requested name missing from the source makes the read
fail. -/
theorem C7_bulk_read_preserves_source_channel_order (S R : List String)
    (hS : S.Nodup) (hR : R.Nodup) (hsub : ∀ r ∈ R, r ∈ S) :
    read_channelnames S R = Except.ok (S.filter (fun s => decide (s ∈ R))) ∧
    read_num_channels S R = Except.ok R.length ∧
    (∀ (S2 R2 : List String) (r : String), r ∈ R2 → r ∉ S2 →
      ∃ e, read_channelnames S2 R2 = Except.error e) := by
  have hres := resolve_indices_eq S R hsub hS
  have hsort := sort_resolved_eq_filter_range hS hR hsub
  have hranges : ∃ ranges, get_contiguous_channels S R = Except.ok ranges ∧
      ranges.flatMap (fun q => List.range' q.1 (q.2 - q.1)) =
        (List.range S.length).filter (fun i => decide (S.getD i "" ∈ R)) := by
    simp only [get_contiguous_channels, hres]
    rw [hsort]
    cases htc : (List.range S.length).filter (fun i => decide (S.getD i "" ∈ R)) with
    | nil => exact ⟨[], rfl, by simp⟩
    | cons x xs =>
        refine ⟨build_ranges x x xs, rfl, ?_⟩
        have hlt : List.Pairwise (· < ·) ((List.range S.length).filter
            (fun i => decide (S.getD i "" ∈ R))) :=
          (List.pairwise_lt_range S.length).filter _
        rw [htc] at hlt
        have hch : List.Chain (· < ·) x xs := List.chain_iff_pairwise.mpr hlt
        rw [flatMap_build_ranges xs x x hch (Nat.le_refl x)]
        rw [show x + 1 - x = 1 from by omega]
        simp
  obtain ⟨ranges, hgc, hflat⟩ := hranges
  refine ⟨?_, ?_, ?_⟩
  · simp only [read_channelnames, hgc]
    rw [hflat]
    exact congrArg Except.ok (filter_range_map_getD S (fun s => decide (s ∈ R)))
  · simp only [read_num_channels, hgc]
    have hlen1 : (ranges.map (fun q => q.2 - q.1)).sum =
        (ranges.flatMap (fun q => List.range' q.1 (q.2 - q.1))).length := by
      rw [List.length_flatMap]
      congr 1
      simp [Function.comp, List.length_range']
    rw [hlen1, hflat]
    have h2 : ((List.range S.length).filter
        (fun i => decide (S.getD i "" ∈ R))).length =
        (S.filter (fun s => decide (s ∈ R))).length := by
      rw [← filter_range_map_getD S (fun s => decide (s ∈ R)), List.length_map]
    rw [h2, (filter_mem_perm hS hR hsub).length_eq]
  · intro S2 R2 r hr hns
    obtain ⟨e, he⟩ := resolve_indices_error S2 R2 r hr hns
    exact ⟨e, by simp [read_channelnames, get_contiguous_channels, he]⟩

/-- C7 witness: a five-channel source read with the request listed in a
shuffled order; the result follows the source order. -/
theorem C7_witness_shuffled_request :
    (["R", "G", "B", "A", "Z"] : List String).Nodup ∧
    (["Z", "R", "B", "A"] : List String).Nodup ∧
    read_channelnames ["R", "G", "B", "A", "Z"] ["Z", "R", "B", "A"] =
      Except.ok ["R", "B", "A", "Z"] ∧
    read_num_channels ["R", "G", "B", "A", "Z"] ["Z", "R", "B", "A"] =
      Except.ok 4 := by
  have h := C7_bulk_read_preserves_source_channel_order ["R", "G", "B", "A", "Z"]
    ["Z", "R", "B", "A"] (by decide) (by decide) (by decide)
  refine ⟨by decide, by decide, ?_, ?_⟩
  · rw [h.1]
    rfl
  · rw [h.2.1]
    rfl
